import Mathlib

/-!
Verification development for payu's manifest subsystem
(`src/payu/manifest.py`).

The Python module is shallowly embedded as pure Lean functions.

* A manifest's `data` dictionary becomes an association list
  `ManifestData` from relative path to `FileRecord`.
* The filesystem and the hashing primitives are represented by an
  abstract, deterministic `Oracle` giving, for a fullpath and a hash
  kind, the digest currently computable for that file (or `none` when
  the hash cannot be computed).
* `sys.exit(1)` / `exit(1)` become explicit `fatal` result
  constructors; files written by `dump()` are collected as a list of
  document snapshots, since an on-disk write persists even when the
  process later exits fatally.
* The `while True:` ancestor walk of `Manifest.setup` can genuinely
  fail to terminate; the state in which the walk stops making progress
  (the filesystem root, where `os.path.split` returns the same head
  forever with an empty tail) is mapped to `none` / `.hangs`.

Operations of the external `yamanifest` package (`check_file`, `add`)
are not part of this repository's sources; they are modelled from the
specification's description of the generic manifest-document
operations and are marked as such in their doc comments.
-/

namespace Payu

/-- Hash policy, from the top of `src/payu/manifest.py`:
`fast_hashes = ['binhash']`. -/
def fast_hashes : List String := ["binhash"]

/-- `full_hashes = ['md5']`. -/
def full_hashes : List String := ["md5"]

/-- `all_hashes = fast_hashes + full_hashes`. -/
def all_hashes : List String := fast_hashes ++ full_hashes

/-- One entry of a manifest's `data` dictionary: the canonical source
path, the per-hash-kind digests (`none` inside the option models a
stored `null`), and the optional copy flag (`none` models a record
whose `copy` key is absent, in which case Python raises `KeyError`
on access). -/
structure FileRecord where
  fullpath : String
  hashes : List (String × Option String)
  copy : Option Bool
deriving DecidableEq

/-- The `data` dictionary of a manifest: an insertion-ordered
association list from relative filepath to record. -/
abbrev ManifestData := List (String × FileRecord)

/-- The hashing primitive / filesystem snapshot: for a fullpath and a
hash-kind name, the digest computable for the file's current content,
or `none` when the hash cannot be computed. -/
abbrev Oracle := String → String → Option String

/-- First value stored under a key in an association list (Python
dictionary lookup). -/
def alget (q : String) : List (String × β) → Option β
  | [] => none
  | e :: t => if e.1 = q then some e.2 else alget q t

/-- Python dictionary assignment `d[k] = v`: replace in place when the
key is present (keeping insertion order), append otherwise. -/
def dictSet (l : List (String × β)) (k : String) (v : β) : List (String × β) :=
  if (alget k l).isSome then l.map (fun e => if e.1 = k then (e.1, v) else e)
  else l ++ [(k, v)]

/-- `self.data[filepath]["hashes"][hash] = val`. -/
def setPathHash (d : ManifestData) (p k : String) (v : Option String) : ManifestData :=
  d.map (fun e => if e.1 = p then (e.1, ⟨e.2.fullpath, dictSet e.2.hashes k v, e.2.copy⟩) else e)

/-! ### Python path and integer primitives

`os.path.split` / `os.path.dirname` / `os.path.basename` (posix
behaviour) and `int()` on decimal strings, modelled directly. -/

/-- Does the first list occur as an initial segment of the second?
Models `str.startswith`. -/
def listStarts : List Char → List Char → Bool
  | [], _ => true
  | _ :: _, [] => false
  | p :: ps, c :: cs => p == c && listStarts ps cs

/-- `os.path.split(p)` for posix paths: split off the component after
the last slash; the head keeps trailing slashes stripped unless it
consists only of slashes. -/
def ospSplit (p : String) : String × String :=
  let cs := p.toList
  let k := (cs.reverse.takeWhile (fun c => c != '/')).length
  let i := cs.length - k
  let head := cs.take i
  let tail := cs.drop i
  let head2 := if head.isEmpty || head.all (fun c => c == '/') then head
               else (head.reverse.dropWhile (fun c => c == '/')).reverse
  (String.mk head2, String.mk tail)

/-- `os.path.dirname`. -/
def dirname (p : String) : String := (ospSplit p).1

/-- `os.path.basename`. -/
def basename (p : String) : String := (ospSplit p).2

/-- Decimal digits to a natural number. -/
def digitsToNat (cs : List Char) : Nat :=
  cs.foldl (fun n c => n * 10 + (c.toNat - ('0').toNat)) 0

/-- Nonempty and all ASCII decimal digits. -/
def pyDigits (cs : List Char) : Bool := !cs.isEmpty && cs.all (fun c => c.isDigit)

/-- Strip leading and trailing whitespace, as `int()` does. -/
def pyStripWS (cs : List Char) : List Char :=
  ((cs.dropWhile (fun c => c.isWhitespace)).reverse.dropWhile (fun c => c.isWhitespace)).reverse

/-- Python `int(s)` on decimal strings: optional surrounding
whitespace, optional sign, then ASCII decimal digits; anything else
raises `ValueError`, modelled as `none`. (Underscore digit grouping
and non-ASCII digits are not modelled; no input considered here
contains them.) -/
def pyInt (s : String) : Option Int :=
  match pyStripWS s.toList with
  | '-' :: rest => if pyDigits rest then some (-(digitsToNat rest : Int)) else none
  | '+' :: rest => if pyDigits rest then some ((digitsToNat rest : Int)) else none
  | cs => if pyDigits cs then some ((digitsToNat cs : Int)) else none

/-- Python truthiness test `not os.environ.get('PAYU_CURRENT_RUN')`:
an unset variable (`none`) and the empty string are falsy. -/
def pyFalsy : Option String → Bool
  | none => true
  | some s => s == ""

/-- `tail.lstrip('restart')`: drop leading characters belonging to the
character set of `"restart"`. -/
def lstripRestart (t : List Char) : List Char :=
  t.dropWhile (fun c => ("restart").toList.contains c)

/-- One probe of the ancestor walk in `Manifest.setup`: given the
`tail` component produced by `os.path.split`, the parsed restart
sequence number when `tail.startswith('restart')` and
`int(tail.lstrip('restart'))` succeeds, `none` otherwise (a
`ValueError` is passed over and the walk continues). -/
def parseRestartTail (t : String) : Option Int :=
  if listStarts ("restart").toList t.toList then pyInt (String.mk (lstripRestart t.toList))
  else none

/-- The `while True:` ancestor walk of `Manifest.setup`, with explicit
fuel. Each iteration runs `head, tail = os.path.split(head)` and exits
with `some n` when `tail` yields a restart number. When `os.path.split`
stops shrinking the path (at the filesystem root or the empty string,
where the tail is empty forever after), the Python loop spins forever;
this is returned as `none`. The initial fuel `length + 1` exceeds the
number of strictly shrinking steps possible, so `none` is returned
only for the genuinely diverging states. -/
def walkGo : Nat → String → Option Int
  | 0, _ => none
  | fuel + 1, head =>
    let s := ospSplit head
    match parseRestartTail s.2 with
    | some n => some n
    | none => if s.1.length < head.length then walkGo fuel s.1 else none

/-- The ancestor walk started on a directory path. -/
def walkWhile (head : String) : Option Int := walkGo (head.length + 1) head

/-- The head of the walk after `k` iterations of
`head, tail = os.path.split(head)`; used to state non-termination of
the raw loop. -/
def loopIter (h : String) : Nat → String
  | 0 => h
  | k + 1 => (ospSplit (loopIter h k)).1

/-- The restart-sequence inference loop of `Manifest.setup` over the
tracked restart fullpaths, in manifest order. For each path the
ancestor walk starts at `os.path.dirname(fullpath)`; on success the
counter becomes `n + 1` and — exactly as in the source — the scan of
further paths stops only when the counter equals zero
(`if self.expt.counter == 0: break`). A diverging walk makes the whole
inference diverge (`none`). -/
def inferCounter (c : Int) : List String → Option Int
  | [] => some c
  | fp :: rest =>
    match walkWhile (dirname fp) with
    | none => none
    | some n => if n + 1 = 0 then some (n + 1) else inferCounter (n + 1) rest

/-! ### `Manifest.setup` -/

/-- Environment observed by `Manifest.setup`: which manifest files
exist on disk, the `overwrite` configuration option, the documents
that loading each file would produce, the `PAYU_CURRENT_RUN`
environment variable, and the experiment counter prior to setup. -/
structure SetupEnv where
  restartExists : Bool
  inputExists : Bool
  exeExists : Bool
  overwrite : Bool
  inputDoc : ManifestData
  exeDoc : ManifestData
  restartDoc : ManifestData
  payuCurrentRun : Option String
  initialCounter : Int
deriving DecidableEq

/-- Coordinator state after a successful `setup`. -/
structure SetupState where
  have_exe : Bool
  have_input : Bool
  have_restart : Bool
  counter : Int
deriving DecidableEq

/-- Result of `Manifest.setup`: normal completion, a fatal `exit(1)`
with the printed message, or divergence of the ancestor walk. -/
inductive SetupResult where
  | ok : SetupState → SetupResult
  | fatal : String → SetupResult
  | hangs : SetupResult
deriving DecidableEq

/-- `have_input_manifest` as computed by `setup`: the input manifest
file exists, `overwrite` is not requested, and the loaded document is
non-empty. -/
def haveInputFlag (env : SetupEnv) : Bool :=
  env.inputExists && !env.overwrite && !env.inputDoc.isEmpty

/-- `have_exe_manifest` as computed by `setup`: the executable
manifest file exists and the loaded document is non-empty. -/
def haveExeFlag (env : SetupEnv) : Bool :=
  env.exeExists && !env.exeDoc.isEmpty

/-- `Manifest.setup`, from `src/payu/manifest.py`. Under
`reproduce=true` the restart manifest is loaded and must be non-empty,
the input manifest must have loaded non-empty, and (when
`reproduce_exe` holds) likewise the executable manifest; each
violation is `exit(1)` with the printed message. Then, when
`PAYU_CURRENT_RUN` is falsy, the restart-sequence inference runs.
Under `reproduce=false` the restart presence flag is forced to
`false`. -/
def setup (reproduce reproduce_exe : Bool) (env : SetupEnv) : SetupResult :=
  if reproduce then
    if env.restartDoc.isEmpty then
      .fatal "Restart manifest cannot be empty if reproduce is True"
    else if !haveInputFlag env then
      .fatal "Input manifest cannot be empty if reproduce is True"
    else if reproduce_exe && !haveExeFlag env then
      .fatal "Executable manifest cannot empty if reproduce and reproduce_exe are True"
    else if pyFalsy env.payuCurrentRun then
      match inferCounter env.initialCounter (env.restartDoc.map (fun e => e.2.fullpath)) with
      | none => .hangs
      | some c => .ok ⟨haveExeFlag env, haveInputFlag env, true, c⟩
    else .ok ⟨haveExeFlag env, haveInputFlag env, true, env.initialCounter⟩
  else .ok ⟨haveExeFlag env, haveInputFlag env, false, env.initialCounter⟩

/-! ### Hash checking (`PayuManifest.check_fast`)

`yamanifest.Manifest.check_file` and `yamanifest.Manifest.add` are
external to this repository; the definitions below follow the
specification's description of the generic document `check`/`add`
operations, instantiated at this module's hash policy. -/

/-- Modelled from the spec: the short-circuit hash computation —
"stop at the first hash kind (within the ordered kind list for that
path) that can be computed". Returns the kind and digest. -/
def computeFirst (oracle : Oracle) (fp : String) : List String → Option (String × String)
  | [] => none
  | k :: ks =>
    match oracle fp k with
    | some v => some (k, v)
    | none => computeFirst oracle fp ks

/-- Modelled from the spec: the per-path fast check
(`check_file` with `hashfn=fast_hashes, shortcircuit=True`): compute
the first computable fast hash and compare with the stored digest; a
stored absent digest counts as a mismatch. Returns whether the path
passed and, on failure, the freshly observed fast-hash values. -/
def checkPathFast (oracle : Oracle) (r : FileRecord) : Bool × List (String × String) :=
  match computeFirst oracle r.fullpath fast_hashes with
  | none => (false, [])
  | some kv =>
    if alget kv.1 r.hashes = some (some kv.2) then (true, [])
    else (false, [kv])

/-- The fast check over every tracked path (`check_file` over
`self.data.keys()`): the failed paths, in manifest order, each with
its freshly observed fast-hash values. The check as a whole passes
exactly when this list is empty. -/
def fastCheckAll (oracle : Oracle) (data : ManifestData) : List (String × List (String × String)) :=
  data.filterMap (fun e =>
    let c := checkPathFast oracle e.2
    if c.1 then none else some (e.1, c.2))

/-- Modelled from the spec: the freshly computed full-hash values for
a record (`check_file` with `hashfn=full_hashes, shortcircuit=False`),
skipping kinds that cannot be computed. -/
def fullComputed (oracle : Oracle) (r : FileRecord) : List (String × String) :=
  full_hashes.filterMap (fun k => (oracle r.fullpath k).map (fun v => (k, v)))

/-- Modelled from the spec: the full-hash re-check of a single path
passes when some full hash was computable and every computed kind
matches the stored digest (a stored absent digest is a mismatch). -/
def fullCheckOk (oracle : Oracle) (r : FileRecord) : Bool :=
  !(fullComputed oracle r).isEmpty &&
    (fullComputed oracle r).all (fun kv => alget kv.1 r.hashes = some (some kv.2))

/-- The per-path diagnostic printed before `sys.exit(1)`: for each
freshly computed full hash, the hash kind, the observed value, and the
previously stored value (`self.data[path]['hashes'].get(hash, None)`,
flattening an absent entry and a stored null alike to `none`). -/
def fullDiag (oracle : Oracle) (r : FileRecord) : List (String × String × Option String) :=
  (fullComputed oracle r).map (fun kv => (kv.1, kv.2, (alget kv.1 r.hashes).getD none))

/-- Whether the strict-mode full re-check would fail for a path of the
given document (false also when the path is untracked). -/
def fullRecheckFails (oracle : Oracle) (d : ManifestData) (p : String) : Bool :=
  match alget p d with
  | none => false
  | some r => !(fullCheckOk oracle r)

/-- Modelled from the spec: `yamanifest.Manifest.add` for one already
tracked path: compute the requested hash kinds for the record's
fullpath and store them. With `shortcircuit` only the first computable
kind is stored. `force` overwrites an existing digest; without it a
digest is written only when the stored value is absent. -/
def addPath (oracle : Oracle) (d : ManifestData) (p : String) (kinds : List String)
    (force shortcircuit : Bool) : ManifestData :=
  match alget p d with
  | none => d
  | some r =>
    if shortcircuit then
      match computeFirst oracle r.fullpath kinds with
      | none => d
      | some kv =>
        if force || ((alget kv.1 r.hashes).getD none).isNone then
          setPathHash d p kv.1 (some kv.2)
        else d
    else
      kinds.foldl (fun d2 k =>
        if force || ((alget k r.hashes).getD none).isNone then
          setPathHash d2 p k (oracle r.fullpath k)
        else d2) d

/-- The first phase of `check_fast` after a failed fast check: "Save
all the fast hashes for failed files that we've already calculated" —
write every freshly observed fast-hash value of every failed path into
the in-memory document. -/
def fastWriteAll (d : ManifestData) (fails : List (String × List (String × String))) : ManifestData :=
  fails.foldl (fun d1 e => e.2.foldl (fun d2 kv => setPathHash d2 e.1 kv.1 (some kv.2)) d1) d

/-- The `reproduce=False` branch of `check_fast`:
`self.add(filepaths=list(hashvals.keys()), hashfn=full_hashes, force=True)`. -/
def addFullAll (oracle : Oracle) (d : ManifestData) (ps : List String) : ManifestData :=
  ps.foldl (fun d1 p => addPath oracle d1 p full_hashes true false) d

/-- Final in-memory document of a completed `check_fast` together with
the successive `dump()` snapshots, in order. -/
structure CheckOutcome where
  data : ManifestData
  dumps : List ManifestData
deriving DecidableEq

/-- Result of `check_fast`: normal completion, `sys.exit(1)` carrying
the mismatching path, its diagnostic lines and the dumps already
written, or a Python `KeyError` (unreachable for well-formed
documents). -/
inductive CheckResult where
  | ok : CheckOutcome → CheckResult
  | fatal : String → List (String × String × Option String) → List ManifestData → CheckResult
  | pyerror : List ManifestData → CheckResult
deriving DecidableEq

/-- The dump snapshots written during a `check_fast` run, whatever its
outcome. -/
def CheckResult.dumpList : CheckResult → List ManifestData
  | .ok o => o.dumps
  | .fatal _ _ ds => ds
  | .pyerror ds => ds

/-- The `reproduce=True` loop of `check_fast`: for each path that
failed the fast check, in order, re-check the full hashes; on success
refresh the fast hashes (`add_fast(filepath, force=True)`) and
`dump()`; on failure print the diagnostic and `sys.exit(1)`. -/
def reproduceLoop (oracle : Oracle) :
    ManifestData → List ManifestData → List (String × List (String × String)) → CheckResult
  | d, dumps, [] => .ok ⟨d, dumps⟩
  | d, dumps, e :: rest =>
    match alget e.1 d with
    | none => .pyerror dumps
    | some r =>
      if fullCheckOk oracle r then
        let d2 := addPath oracle d e.1 fast_hashes true true
        reproduceLoop oracle d2 (dumps ++ [d2]) rest
      else
        .fatal e.1 (fullDiag oracle r) dumps

/-- `PayuManifest.check_fast` from `src/payu/manifest.py`: run the
fast check over all tracked paths; when every path passes, nothing
happens. Otherwise save the observed fast hashes into the document,
then either (strict mode) run the per-path full re-check loop, or
(lenient mode) force-recompute the full hashes of every failed path
and `dump()` once. -/
def check_fast (oracle : Oracle) (reproduce : Bool) (data : ManifestData) : CheckResult :=
  let fails := fastCheckAll oracle data
  if fails.isEmpty then .ok ⟨data, []⟩
  else
    let data1 := fastWriteAll data fails
    if reproduce then
      reproduceLoop oracle data1 [] fails
    else
      let data2 := addFullAll oracle data1 (fails.map Prod.fst)
      .ok ⟨data2, [data2]⟩

/-! ### `PayuManifest.add_filepath` and `PayuManifest.copy_file` -/

/-- `PayuManifest.add_filepath`: register a path without hashing.
Directories and basenames matching an ignore glob are skipped
silently. A new record gets the given fullpath, an all-`null` hash map
over `all_hashes`, and — only when `copy` is requested — the copy
flag; an existing record keeps its hashes and (unless `copy` is
requested) its copy flag. `isdir` models `os.path.isdir` and `fnm`
models `fnmatch.fnmatch`. -/
def add_filepath (isdir : String → Bool) (fnm : String → String → Bool)
    (ignore : List String) (data : ManifestData)
    (filepath fullpath : String) (copy : Bool) : ManifestData :=
  if isdir fullpath then data
  else if ignore.any (fun pat => fnm (basename fullpath) pat) then data
  else
    match alget filepath data with
    | none =>
      data ++ [(filepath, ⟨fullpath, all_hashes.map (fun h => (h, none)),
        if copy then some true else none⟩)]
    | some r0 =>
      data.map (fun e =>
        if e.1 = filepath then
          (e.1, ⟨fullpath, r0.hashes, if copy then some true else r0.copy⟩)
        else e)

/-- `PayuManifest.copy_file`: the stored copy flag, with a `KeyError`
(unknown path, or record without a `copy` key) turned into `False`. -/
def copy_file (data : ManifestData) (filepath : String) : Bool :=
  match alget filepath data with
  | none => false
  | some r =>
    match r.copy with
    | none => false
    | some b => b

/-! ### Views and invariants used by the theorems -/

/-- The aspects of a record that the strict-mode full re-check and the
diagnostics depend on, and that the fast-hash refreshes leave
untouched: the fullpath, the copy flag, and the stored `md5` entry. -/
def coreView (r : FileRecord) : String × Option Bool × Option (Option String) :=
  (r.fullpath, r.copy, alget "md5" r.hashes)

/-- Two documents agree, path by path, on `coreView`. -/
def PreservesCore (d0 d : ManifestData) : Prop :=
  ∀ p, (alget p d).map coreView = (alget p d0).map coreView

/-- Two documents agree, path by path, on record fullpaths. -/
def SameFullpaths (d0 d : ManifestData) : Prop :=
  ∀ p, (alget p d).map (fun r => r.fullpath) = (alget p d0).map (fun r => r.fullpath)

/-- Every listed failed path is tracked by the document and stores all
of its freshly observed fast-hash values. -/
def FastVals (fails : List (String × List (String × String))) (d : ManifestData) : Prop :=
  ∀ e ∈ fails, ∃ r, alget e.1 d = some r ∧
    ∀ kv ∈ e.2, alget kv.1 r.hashes = some (some kv.2)

/-! ### Concrete documents, oracles and environments used as witnesses -/

/-- Oracle for the `check_fast` witnesses: file `/in/a` has a changed
fast hash but an unchanged full hash; file `/in/b` has both hashes
changed. -/
def oW : Oracle := fun fp k =>
  if fp = "/in/a" then
    (if k = "binhash" then some "b-new" else if k = "md5" then some "m-old" else none)
  else if fp = "/in/b" then
    (if k = "binhash" then some "bb-new" else if k = "md5" then some "mb-new" else none)
  else none

/-- Record for `/in/a`: stale fast hash, current full hash. -/
def recA : FileRecord := ⟨ "/in/a", [("binhash", some "b-old"), ("md5", some "m-old")], none⟩

/-- Record for `/in/b`: stale fast hash and stale full hash. -/
def recB : FileRecord := ⟨ "/in/b", [("binhash", some "bb-old"), ("md5", some "mb-old")], none⟩

/-- Two-path document: `fa` heals under strict mode, `fb` cannot
reproduce. -/
def dW : ManifestData := [("fa", recA), ("fb", recB)]

/-- One-path document that heals under strict mode. -/
def dH : ManifestData := [("fa", recA)]

/-- The healed document for `dH`: fast hash refreshed, full hash kept. -/
def dH2 : ManifestData := [("fa", ⟨ "/in/a", [("binhash", some "b-new"), ("md5", some "m-old")], none⟩)]

/-- The single dump of the strict-mode run on `dW`: written when `fa`
heals, before `fb` is full-hash-checked; it already carries `fb`'s
fresh fast hash. -/
def dW1 : ManifestData :=
  [("fa", ⟨ "/in/a", [("binhash", some "b-new"), ("md5", some "m-old")], none⟩),
   ("fb", ⟨ "/in/b", [("binhash", some "bb-new"), ("md5", some "mb-old")], none⟩)]

/-- Setup environment whose restart manifest loads empty. -/
def envEmptyRestart : SetupEnv :=
  ⟨true, true, true, false, [("i", recA)], [("e", recB)], [], none, 0⟩

/-- Setup environment with two restart paths under `restart003` and
`restart007` directories and no `PAYU_CURRENT_RUN` override. -/
def envTwoRestarts : SetupEnv :=
  ⟨true, true, true, false, [("i", recA)], [("e", recB)],
    [("r1/a.nc", ⟨ "/arch/restart003/res/a.nc", [], none⟩),
     ("r2/b.nc", ⟨ "/arch/restart007/res/b.nc", [], none⟩)], none, 0⟩

/-- Setup environment with one restart path having no restart-named
ancestor directory at all. -/
def envNoRestartDir : SetupEnv :=
  ⟨true, true, true, false, [("i", recA)], [("e", recB)],
    [("r1/file.nc", ⟨ "/data/archive/run1/file.nc", [], none⟩)], none, 0⟩

/-- Setup environment with one restart path under a `restart003`
ancestor, parameterised by the `PAYU_CURRENT_RUN` value. -/
def envRestart003 (o : Option String) : SetupEnv :=
  ⟨true, true, true, false, [("i", recA)], [("e", recB)],
    [("ocean/restart.nc", ⟨ "/archive/exp1/restart003/ocean/ocean.res.nc", [], none⟩)], o, 0⟩

/-- Directory predicate for the `add_filepath` witness. -/
def isdirW : String → Bool := fun fp => fp = "/work/somedir"

/-- Glob matcher for the `add_filepath` witness: a pattern matches
when it equals the name or it is the hidden-file pattern and the name
starts with a dot. -/
def fnmW : String → String → Bool := fun name pat =>
  pat = name || (pat = ".*" && listStarts ([ '.' ]) name.toList)

end Payu

namespace Payu

/-! ## Association-list lemmas -/

theorem alget_append_of_none {β : Type} {l1 l2 : List (String × β)} {q : String}
    (h : alget q l1 = none) : alget q (l1 ++ l2) = alget q l2 := by
  induction l1 with
  | nil => rfl
  | cons e t ih =>
    by_cases he : e.1 = q
    · simp [alget, he] at h
    · simp [alget, he] at h ⊢
      exact ih h

theorem alget_append_of_some {β : Type} {l1 l2 : List (String × β)} {q : String} {b : β}
    (h : alget q l1 = some b) : alget q (l1 ++ l2) = some b := by
  induction l1 with
  | nil => simp [alget] at h
  | cons e t ih =>
    by_cases he : e.1 = q
    · simp [alget, he] at h ⊢
      exact h
    · simp [alget, he] at h ⊢
      exact ih h

theorem alget_map_update {β : Type} (f : β → β) (p : String) :
    ∀ (l : List (String × β)) (q : String),
      alget q (l.map (fun e => if e.1 = p then (e.1, f e.2) else e)) =
        if q = p then (alget q l).map f else alget q l := by
  intro l
  induction l with
  | nil =>
    intro q
    by_cases h : q = p <;> simp [alget, h]
  | cons e t ih =>
    intro q
    by_cases hep : e.1 = p
    · by_cases heq : e.1 = q
      · have hqp : q = p := by rw [← heq, hep]
        simp [alget, hep, heq, hqp]
      · have hqp : ¬ q = p := fun hq => heq (by rw [hep, hq])
        have hpq : ¬ p = q := fun hh => heq (by rw [hep, hh])
        simp [alget, hep, heq, hqp, hpq, ih]
    · by_cases heq : e.1 = q
      · have hqp : ¬ q = p := fun hq => hep (by rw [heq, hq])
        simp [alget, hep, heq, hqp]
      · simp [alget, hep, heq, ih]

theorem alget_map_const {β : Type} (r : β) (p : String) :
    ∀ (l : List (String × β)) (q : String),
      alget q (l.map (fun e => if e.1 = p then (e.1, r) else e)) =
        if q = p then (alget q l).map (fun _ => r) else alget q l := by
  intro l
  induction l with
  | nil =>
    intro q
    by_cases h : q = p <;> simp [alget, h]
  | cons e t ih =>
    intro q
    by_cases hep : e.1 = p
    · by_cases heq : e.1 = q
      · have hqp : q = p := by rw [← heq, hep]
        simp [alget, hep, heq, hqp]
      · have hqp : ¬ q = p := fun hq => heq (by rw [hep, hq])
        have hpq : ¬ p = q := fun hh => heq (by rw [hep, hh])
        simp [alget, hep, heq, hqp, hpq, ih]
    · by_cases heq : e.1 = q
      · have hqp : ¬ q = p := fun hq => hep (by rw [heq, hq])
        simp [alget, hep, heq, hqp]
      · simp [alget, hep, heq, ih]

theorem alget_dictSet {β : Type} (k : String) (v : β) (l : List (String × β)) (q : String) :
    alget q (dictSet l k v) = if q = k then some v else alget q l := by
  by_cases hk : (alget k l).isSome
  · obtain ⟨b, hb⟩ := Option.isSome_iff_exists.mp hk
    unfold dictSet
    rw [if_pos hk, alget_map_const v k l q]
    by_cases hq : q = k
    · subst hq
      rw [if_pos rfl, if_pos rfl, hb]
      rfl
    · rw [if_neg hq, if_neg hq]
  · have hnone : alget k l = none := Option.not_isSome_iff_eq_none.mp hk
    unfold dictSet
    rw [if_neg hk]
    by_cases hq : q = k
    · have hq2 : alget q l = none := by rw [hq]; exact hnone
      rw [alget_append_of_none hq2, if_pos hq]
      show (if k = q then some v else (none : Option β)) = some v
      rw [if_pos hq.symm]
    · rw [if_neg hq]
      cases h : alget q l with
      | none =>
        rw [alget_append_of_none h]
        show (if k = q then some v else (none : Option β)) = none
        rw [if_neg (fun hkq => hq hkq.symm)]
      | some b => rw [alget_append_of_some h]

theorem alget_setPathHash (d : ManifestData) (p k : String) (v : Option String) (q : String) :
    alget q (setPathHash d p k v) =
      if q = p then (alget q d).map (fun r => ⟨r.fullpath, dictSet r.hashes k v, r.copy⟩)
      else alget q d := by
  unfold setPathHash
  exact alget_map_update
    (fun r => (⟨r.fullpath, dictSet r.hashes k v, r.copy⟩ : FileRecord)) p d q

theorem alget_setPathHash_ne (d : ManifestData) (p k : String) (v : Option String)
    {q : String} (h : q ≠ p) : alget q (setPathHash d p k v) = alget q d := by
  rw [alget_setPathHash, if_neg h]

theorem isSome_setPathHash (d : ManifestData) (p k : String) (v : Option String) (q : String) :
    (alget q (setPathHash d p k v)).isSome = (alget q d).isSome := by
  rw [alget_setPathHash]
  by_cases h : q = p
  · rw [if_pos h]
    cases alget q d <;> rfl
  · rw [if_neg h]

theorem alget_isSome_of_mem {β : Type} {d : List (String × β)} {p : String} {b : β}
    (h : (p, b) ∈ d) : (alget p d).isSome := by
  induction d with
  | nil => cases h
  | cons e t ih =>
    rcases List.mem_cons.mp h with h1 | h2
    · subst h1; simp [alget]
    · by_cases he : e.1 = p
      · simp [alget, he]
      · simpa [alget, he] using ih h2

theorem alget_of_mem_nodup {β : Type} {d : List (String × β)} {p : String} {b : β}
    (hnd : (d.map Prod.fst).Nodup) (h : (p, b) ∈ d) : alget p d = some b := by
  induction d with
  | nil => cases h
  | cons e t ih =>
    rcases List.mem_cons.mp h with h1 | h2
    · subst h1; simp [alget]
    · have he : e.1 ≠ p := by
        intro hep
        have hmem : p ∈ t.map Prod.fst := List.mem_map.mpr ⟨(p, b), h2, rfl⟩
        exact (List.nodup_cons.mp hnd).1 (hep ▸ hmem)
      simp only [alget, if_neg he]
      exact ih (List.nodup_cons.mp hnd).2 h2

/-! ## C9 and C10: `add_filepath` and `copy_file` -/

/-- C10: `copy_file` never raises and defaults to `false`: it returns
`false` when the path is absent from the document or the record's
copy flag is unset, and the stored flag otherwise. -/
theorem copy_file_defaults_false (data : ManifestData) (p : String) :
    (alget p data = none → copy_file data p = false) ∧
    (∀ r, alget p data = some r → r.copy = none → copy_file data p = false) ∧
    (∀ r b, alget p data = some r → r.copy = some b → copy_file data p = b) := by
  refine ⟨fun h => ?_, fun r h hc => ?_, fun r b h hc => ?_⟩
  · simp [copy_file, h]
  · simp [copy_file, h, hc]
  · simp [copy_file, h, hc]

theorem copy_file_defaults_false_w : copy_file dW "unknown" = false :=
  (copy_file_defaults_false dW "unknown").1 (by decide)

/-- C9: `add_filepath` skips directories and ignore-glob matches
silently, leaving the document unchanged; otherwise it registers a
record with the given fullpath without computing any hash (a fresh
record's hash map is all-`null` over `all_hashes`; an existing
record's hashes are kept). -/
theorem add_filepath_skips_or_registers (isdir : String → Bool) (fnm : String → String → Bool)
    (ignore : List String) (data : ManifestData) (filepath fullpath : String) (copy : Bool) :
    (isdir fullpath = true →
      add_filepath isdir fnm ignore data filepath fullpath copy = data) ∧
    (ignore.any (fun pat => fnm (basename fullpath) pat) = true →
      add_filepath isdir fnm ignore data filepath fullpath copy = data) ∧
    (isdir fullpath = false →
      ignore.any (fun pat => fnm (basename fullpath) pat) = false →
      ∃ r, alget filepath (add_filepath isdir fnm ignore data filepath fullpath copy) = some r ∧
        r.fullpath = fullpath ∧
        ((alget filepath data = none ∧ r.hashes = all_hashes.map (fun h => (h, none))) ∨
         (∃ r0, alget filepath data = some r0 ∧ r.hashes = r0.hashes))) := by
  refine ⟨fun hd => ?_, fun hi => ?_, fun hd hi => ?_⟩
  · simp [add_filepath, hd]
  · by_cases hd : isdir fullpath
    · simp [add_filepath, hd]
    · simp [add_filepath, hd, hi]
  · unfold add_filepath
    simp only [hd, hi, Bool.false_eq_true, if_false]
    cases h : alget filepath data with
    | none =>
      refine ⟨⟨fullpath, all_hashes.map (fun hh => (hh, none)),
        if copy then some true else none⟩, ?_, rfl, Or.inl ⟨rfl, rfl⟩⟩
      show alget filepath (data ++ [(filepath, ⟨fullpath, all_hashes.map (fun hh => (hh, none)),
        if copy then some true else none⟩)]) = _
      rw [alget_append_of_none h]
      simp [alget]
    | some r0 =>
      refine ⟨⟨fullpath, r0.hashes, if copy then some true else r0.copy⟩,
        ?_, rfl, Or.inr ⟨r0, rfl, rfl⟩⟩
      show alget filepath (data.map (fun e => if e.1 = filepath then
        (e.1, ⟨fullpath, r0.hashes, if copy then some true else r0.copy⟩) else e)) = _
      rw [alget_map_const (β := FileRecord)
        (⟨fullpath, r0.hashes, if copy then some true else r0.copy⟩ : FileRecord) filepath data
        filepath, if_pos rfl, h]
      rfl

theorem add_filepath_skips_or_registers_w :
    ∃ r, alget "work/f.nc"
        (add_filepath isdirW fnmW [".*"] [] "work/f.nc" "/work/f.nc" true) = some r ∧
      r.fullpath = "/work/f.nc" ∧
      ((alget "work/f.nc" ([] : ManifestData) = none ∧
        r.hashes = all_hashes.map (fun h => (h, none))) ∨
       (∃ r0, alget "work/f.nc" ([] : ManifestData) = some r0 ∧ r.hashes = r0.hashes)) :=
  (add_filepath_skips_or_registers isdirW fnmW [".*"] [] "work/f.nc" "/work/f.nc" true).2.2
    (by decide) (by decide)

/-! ## C4, C5, C6, C7: `Manifest.setup` -/

/-- C4: under `reproduce=true`, `setup` fails fatally when the restart
manifest loads empty, when the input manifest is not present and
non-empty, and — with `reproduce_exe` enabled — when the executable
manifest is not present and non-empty. (`setup` performs no link
materialization at all: links are created only by the separate
`make_links` method.) -/
theorem setup_reproduce_preconditions (env : SetupEnv) (rex : Bool) :
    (env.restartDoc = [] →
      setup true rex env = .fatal "Restart manifest cannot be empty if reproduce is True") ∧
    (haveInputFlag env = false → ∃ m, setup true rex env = .fatal m) ∧
    (rex = true → haveExeFlag env = false → ∃ m, setup true rex env = .fatal m) := by
  refine ⟨fun h => ?_, fun h => ?_, fun hrex h => ?_⟩
  · simp [setup, h]
  · by_cases hr : env.restartDoc.isEmpty
    · exact ⟨"Restart manifest cannot be empty if reproduce is True", by simp [setup, hr]⟩
    · exact ⟨"Input manifest cannot be empty if reproduce is True", by simp [setup, hr, h]⟩
  · by_cases hr : env.restartDoc.isEmpty
    · exact ⟨"Restart manifest cannot be empty if reproduce is True", by simp [setup, hr]⟩
    · by_cases hi : haveInputFlag env
      · exact ⟨"Executable manifest cannot empty if reproduce and reproduce_exe are True",
          by simp [setup, hr, hi, hrex, h]⟩
      · exact ⟨"Input manifest cannot be empty if reproduce is True", by simp [setup, hr, hi]⟩

theorem setup_reproduce_preconditions_w :
    setup true true envEmptyRestart =
      .fatal "Restart manifest cannot be empty if reproduce is True" :=
  (setup_reproduce_preconditions envEmptyRestart true).1 rfl

/-- C5 (divergence from the claim): with two tracked restart paths
under `restart003` and `restart007` and no override, `setup` resolves
the run counter to `8`, i.e. from the LAST restart path that resolves,
not the first: the scan `if self.expt.counter == 0: break` stops only
when the counter equals zero, which never holds after
`counter = n + 1` with `n ≥ 0`. -/
theorem setup_counter_last_restart_wins :
    setup true true envTwoRestarts = .ok ⟨true, true, true, 8⟩ := by decide

theorem loopIter_run1_stable (n : Nat) : loopIter "/data/archive/run1" (n + 3) = "/" := by
  induction n with
  | zero => decide
  | succ m ih =>
    show (ospSplit (loopIter "/data/archive/run1" (m + 3))).1 = "/"
    rw [ih]
    decide

/-- C6 (divergence from the claim): started below
`/data/archive/run1/file.nc`, no iteration of the
`head, tail = os.path.split(head)` loop ever satisfies the exit
condition — the walk reaches the filesystem root and spins there
forever (`os.path.split('/') = ('/', '')`), so `setup` never
terminates instead of stopping at the root. -/
theorem setup_walk_nonterminating :
    (∀ k, parseRestartTail (ospSplit (loopIter "/data/archive/run1" k)).2 = none) ∧
    walkWhile "/data/archive/run1" = none ∧
    setup true true envNoRestartDir = .hangs := by
  refine ⟨fun k => ?_, by decide, by decide⟩
  match k with
  | 0 => decide
  | 1 => decide
  | 2 => decide
  | n + 3 => rw [loopIter_run1_stable]; decide

/-- C7: with a tracked restart path whose fullpath has an ancestor
directory literally named `restart003` and no `PAYU_CURRENT_RUN`
override, `setup` resolves the run counter to `4`. -/
theorem setup_restart003_counter_four (o : Option String) (h : pyFalsy o = true) :
    setup true true (envRestart003 o) = .ok ⟨true, true, true, 4⟩ := by
  cases o with
  | none => decide
  | some s =>
    have hs : s = "" := by
      have hb : (s == "") = true := h
      exact eq_of_beq hb
    subst hs
    decide

theorem setup_restart003_counter_four_w :
    pyFalsy none = true ∧ setup true true (envRestart003 none) = .ok ⟨true, true, true, 4⟩ :=
  ⟨rfl, setup_restart003_counter_four none rfl⟩

end Payu

namespace Payu

/-! ## Reduction lemmas for the concrete hash policy -/

theorem computeFirst_fast_eq (oracle : Oracle) (fp : String) :
    computeFirst oracle fp fast_hashes = (oracle fp "binhash").map (fun v => ("binhash", v)) := by
  show computeFirst oracle fp ["binhash"] = _
  cases h : oracle fp "binhash" <;> simp [computeFirst, h]

theorem fullComputed_eq (oracle : Oracle) (r : FileRecord) :
    fullComputed oracle r =
      match oracle r.fullpath "md5" with
      | none => []
      | some v => [("md5", v)] := by
  unfold fullComputed
  cases h : oracle r.fullpath "md5" <;> simp [full_hashes, h]

theorem fullCheckOk_true_iff (oracle : Oracle) (r : FileRecord) :
    fullCheckOk oracle r = true ↔
      ∃ v, oracle r.fullpath "md5" = some v ∧ alget "md5" r.hashes = some (some v) := by
  unfold fullCheckOk
  rw [fullComputed_eq]
  cases h : oracle r.fullpath "md5" <;> simp [h]

theorem fullCheckOk_congr (oracle : Oracle) {r r0 : FileRecord}
    (hfp : r.fullpath = r0.fullpath) (hm : alget "md5" r.hashes = alget "md5" r0.hashes) :
    fullCheckOk oracle r = fullCheckOk oracle r0 := by
  unfold fullCheckOk
  rw [fullComputed_eq, fullComputed_eq, hfp]
  cases h : oracle r0.fullpath "md5" <;> simp [hm]

theorem fullDiag_congr (oracle : Oracle) {r r0 : FileRecord}
    (hfp : r.fullpath = r0.fullpath) (hm : alget "md5" r.hashes = alget "md5" r0.hashes) :
    fullDiag oracle r = fullDiag oracle r0 := by
  unfold fullDiag
  rw [fullComputed_eq, fullComputed_eq, hfp]
  cases h : oracle r0.fullpath "md5" <;> simp [hm]

theorem fullRecheckFails_of_some {oracle : Oracle} {d : ManifestData} {p : String}
    {r : FileRecord} (h : alget p d = some r) :
    fullRecheckFails oracle d p = !(fullCheckOk oracle r) := by
  unfold fullRecheckFails
  rw [h]

theorem addFast_eq (oracle : Oracle) (d : ManifestData) (p : String) :
    addPath oracle d p fast_hashes true true =
      match alget p d with
      | none => d
      | some r =>
        match oracle r.fullpath "binhash" with
        | none => d
        | some v => setPathHash d p "binhash" (some v) := by
  unfold addPath
  cases alget p d with
  | none => rfl
  | some r =>
    dsimp only
    rw [computeFirst_fast_eq]
    cases oracle r.fullpath "binhash" <;> simp

theorem addFull_eq (oracle : Oracle) (d : ManifestData) (p : String) :
    addPath oracle d p full_hashes true false =
      match alget p d with
      | none => d
      | some r => setPathHash d p "md5" (oracle r.fullpath "md5") := by
  unfold addPath
  cases alget p d with
  | none => rfl
  | some r => simp [full_hashes]

theorem alget_addFast_ne (oracle : Oracle) (d : ManifestData) (p : String) {q : String}
    (h : q ≠ p) : alget q (addPath oracle d p fast_hashes true true) = alget q d := by
  rw [addFast_eq]
  cases alget p d with
  | none => rfl
  | some r =>
    dsimp only
    cases oracle r.fullpath "binhash" with
    | none => rfl
    | some v => exact alget_setPathHash_ne d p "binhash" (some v) h

theorem isSome_addFast (oracle : Oracle) (d : ManifestData) (p q : String) :
    (alget q (addPath oracle d p fast_hashes true true)).isSome = (alget q d).isSome := by
  rw [addFast_eq]
  cases alget p d with
  | none => rfl
  | some r =>
    dsimp only
    cases oracle r.fullpath "binhash" with
    | none => rfl
    | some v => exact isSome_setPathHash d p "binhash" (some v) q

/-! ## `PreservesCore` -/

theorem preservesCore_refl (d : ManifestData) : PreservesCore d d := fun _ => rfl

theorem alget_of_core {d0 d : ManifestData} (h : PreservesCore d0 d) {p : String}
    {r0 : FileRecord} (hr : alget p d0 = some r0) :
    ∃ r, alget p d = some r ∧ r.fullpath = r0.fullpath ∧ r.copy = r0.copy ∧
      alget "md5" r.hashes = alget "md5" r0.hashes := by
  have hh := h p
  rw [hr] at hh
  cases hd : alget p d with
  | none => rw [hd] at hh; exact absurd hh (by simp)
  | some r =>
    rw [hd] at hh
    simp only [Option.map_some', Option.some.injEq, coreView, Prod.mk.injEq] at hh
    exact ⟨r, rfl, hh.1, hh.2.1, hh.2.2⟩

theorem isSome_of_core {d0 d : ManifestData} (h : PreservesCore d0 d) (p : String) :
    (alget p d).isSome = (alget p d0).isSome := by
  have hh := h p
  cases h1 : alget p d <;> cases h2 : alget p d0 <;> rw [h1, h2] at hh <;> simp_all

theorem preservesCore_setPathHash {d0 d : ManifestData} (p k : String) (v : Option String)
    (hk : k ≠ "md5") (h : PreservesCore d0 d) : PreservesCore d0 (setPathHash d p k v) := by
  intro q
  rw [alget_setPathHash]
  by_cases hq : q = p
  · rw [if_pos hq, ← h q]
    cases alget q d with
    | none => rfl
    | some r =>
      show some (coreView ⟨r.fullpath, dictSet r.hashes k v, r.copy⟩) = some (coreView r)
      simp only [coreView]
      rw [alget_dictSet, if_neg (fun hmk : "md5" = k => hk hmk.symm)]
  · rw [if_neg hq]
    exact h q

theorem preservesCore_addFast (oracle : Oracle) {d0 d : ManifestData} (p : String)
    (h : PreservesCore d0 d) : PreservesCore d0 (addPath oracle d p fast_hashes true true) := by
  rw [addFast_eq]
  cases alget p d with
  | none => exact h
  | some r =>
    dsimp only
    cases oracle r.fullpath "binhash" with
    | none => exact h
    | some v => exact preservesCore_setPathHash p "binhash" (some v) (by decide) h

/-! ## Analysing the fast check -/

theorem checkPathFast_cases (oracle : Oracle) {r : FileRecord} {vals : List (String × String)}
    (h : checkPathFast oracle r = (false, vals)) :
    vals = [] ∨ ∃ v, vals = [("binhash", v)] ∧ oracle r.fullpath "binhash" = some v := by
  unfold checkPathFast at h
  rw [computeFirst_fast_eq] at h
  cases ho : oracle r.fullpath "binhash" with
  | none =>
    rw [ho, Option.map_none'] at h
    exact Or.inl (congrArg Prod.snd h).symm
  | some v =>
    rw [ho, Option.map_some'] at h
    dsimp only at h
    by_cases hb : alget "binhash" r.hashes = some (some v)
    · rw [if_pos hb] at h
      exact absurd (congrArg Prod.fst h) (by simp)
    · rw [if_neg hb] at h
      exact Or.inr ⟨v, (congrArg Prod.snd h).symm, rfl⟩

theorem fastCheckAll_mem {oracle : Oracle} {data : ManifestData} {p : String}
    {vals : List (String × String)} (h : (p, vals) ∈ fastCheckAll oracle data) :
    ∃ r, (p, r) ∈ data ∧ checkPathFast oracle r = (false, vals) := by
  unfold fastCheckAll at h
  obtain ⟨e, he, hfe⟩ := List.mem_filterMap.mp h
  by_cases hc : (checkPathFast oracle e.2).1
  · simp [hc] at hfe
  · simp only [hc, Bool.false_eq_true, if_false, Option.some.injEq, Prod.mk.injEq] at hfe
    obtain ⟨h1, h2⟩ := hfe
    have hfst : (checkPathFast oracle e.2).1 = false := by simpa using hc
    refine ⟨e.2, h1 ▸ he, ?_⟩
    calc checkPathFast oracle e.2
        = ((checkPathFast oracle e.2).1, (checkPathFast oracle e.2).2) := rfl
      _ = (false, vals) := by rw [hfst, h2]

theorem fastCheckAll_kinds {oracle : Oracle} {data : ManifestData} :
    ∀ e ∈ fastCheckAll oracle data, ∀ kv ∈ e.2, kv.1 = "binhash" := by
  intro e he kv hkv
  obtain ⟨r, _, hck⟩ := fastCheckAll_mem he
  rcases checkPathFast_cases oracle hck with h0 | ⟨v, hv, _⟩
  · rw [h0] at hkv
    cases hkv
  · rw [hv] at hkv
    rcases List.mem_singleton.mp hkv with rfl
    rfl

theorem fastCheckAll_vals_oracle {oracle : Oracle} {data : ManifestData}
    (hnd : (data.map Prod.fst).Nodup) :
    ∀ e ∈ fastCheckAll oracle data, ∀ kv ∈ e.2,
      ∃ r0, alget e.1 data = some r0 ∧ kv.1 = "binhash" ∧
        oracle r0.fullpath "binhash" = some kv.2 := by
  intro e he kv hkv
  obtain ⟨r, hmem, hck⟩ := fastCheckAll_mem he
  have hal : alget e.1 data = some r := alget_of_mem_nodup hnd hmem
  rcases checkPathFast_cases oracle hck with h0 | ⟨v, hv, ho⟩
  · rw [h0] at hkv
    cases hkv
  · rw [hv] at hkv
    rcases List.mem_singleton.mp hkv with rfl
    exact ⟨r, hal, rfl, ho⟩

theorem fastCheckAll_keys_sublist (oracle : Oracle) (data : ManifestData) :
    ((fastCheckAll oracle data).map Prod.fst).Sublist (data.map Prod.fst) := by
  induction data with
  | nil => simp [fastCheckAll]
  | cons e t ih =>
    show ((fastCheckAll oracle (e :: t)).map Prod.fst).Sublist _
    unfold fastCheckAll
    rw [List.filterMap_cons]
    by_cases hc : (checkPathFast oracle e.2).1
    · simp only [hc, if_pos]
      exact (ih : _).cons e.1
    · simp only [hc, Bool.false_eq_true, if_false]
      rw [List.map_cons]
      exact (ih : _).cons₂ e.1

theorem fastCheckAll_keys_nodup {oracle : Oracle} {data : ManifestData}
    (hnd : (data.map Prod.fst).Nodup) : ((fastCheckAll oracle data).map Prod.fst).Nodup :=
  hnd.sublist (fastCheckAll_keys_sublist oracle data)

end Payu

namespace Payu

/-! ## The fast-hash write phase -/

theorem setFold_frame (p : String) {q : String} (hq : q ≠ p) :
    ∀ (vals : List (String × String)) (d : ManifestData),
      alget q (vals.foldl (fun d2 kv => setPathHash d2 p kv.1 (some kv.2)) d) = alget q d := by
  intro vals
  induction vals with
  | nil => intro d; rfl
  | cons kv t ih =>
    intro d
    rw [List.foldl_cons, ih]
    exact alget_setPathHash_ne d p kv.1 (some kv.2) hq

theorem isSome_setFold (p q : String) :
    ∀ (vals : List (String × String)) (d : ManifestData),
      (alget q (vals.foldl (fun d2 kv => setPathHash d2 p kv.1 (some kv.2)) d)).isSome =
        (alget q d).isSome := by
  intro vals
  induction vals with
  | nil => intro d; rfl
  | cons kv t ih =>
    intro d
    rw [List.foldl_cons, ih, isSome_setPathHash]

theorem preservesCore_setFold {d0 : ManifestData} (p : String) :
    ∀ (vals : List (String × String)) (d : ManifestData),
      (∀ kv ∈ vals, kv.1 ≠ "md5") → PreservesCore d0 d →
      PreservesCore d0 (vals.foldl (fun d2 kv => setPathHash d2 p kv.1 (some kv.2)) d) := by
  intro vals
  induction vals with
  | nil => intro d _ h; exact h
  | cons kv t ih =>
    intro d hks h
    rw [List.foldl_cons]
    exact ih _ (fun x hx => hks x (List.mem_cons_of_mem kv hx))
      (preservesCore_setPathHash p kv.1 (some kv.2) (hks kv (List.mem_cons_self kv t)) h)

theorem fastWriteAll_nil (d : ManifestData) : fastWriteAll d [] = d := rfl

theorem fastWriteAll_cons (d : ManifestData) (e : String × List (String × String))
    (rest : List (String × List (String × String))) :
    fastWriteAll d (e :: rest) =
      fastWriteAll (e.2.foldl (fun d2 kv => setPathHash d2 e.1 kv.1 (some kv.2)) d) rest := rfl

theorem fastWriteAll_frame {p : String} :
    ∀ (fails : List (String × List (String × String))) (d : ManifestData),
      p ∉ fails.map Prod.fst → alget p (fastWriteAll d fails) = alget p d := by
  intro fails
  induction fails with
  | nil => intro d _; rfl
  | cons e rest ih =>
    intro d hp
    rw [List.map_cons] at hp
    have h1 : p ≠ e.1 := fun hh => hp (by rw [hh]; exact List.mem_cons_self _ _)
    have h2 : p ∉ rest.map Prod.fst := fun hm => hp (List.mem_cons_of_mem _ hm)
    rw [fastWriteAll_cons, ih _ h2, setFold_frame e.1 h1 e.2 d]

theorem isSome_fastWriteAll (q : String) :
    ∀ (fails : List (String × List (String × String))) (d : ManifestData),
      (alget q (fastWriteAll d fails)).isSome = (alget q d).isSome := by
  intro fails
  induction fails with
  | nil => intro d; rfl
  | cons e rest ih =>
    intro d
    rw [fastWriteAll_cons, ih, isSome_setFold]

theorem preservesCore_fastWriteAll {d0 : ManifestData} :
    ∀ (fails : List (String × List (String × String))) (d : ManifestData),
      (∀ e ∈ fails, ∀ kv ∈ e.2, kv.1 ≠ "md5") → PreservesCore d0 d →
      PreservesCore d0 (fastWriteAll d fails) := by
  intro fails
  induction fails with
  | nil => intro d _ h; exact h
  | cons e rest ih =>
    intro d hks h
    rw [fastWriteAll_cons]
    exact ih _ (fun x hx kv hkv => hks x (List.mem_cons_of_mem e hx) kv hkv)
      (preservesCore_setFold e.1 e.2 d (hks e (List.mem_cons_self e rest)) h)

theorem preservesCore_data1 (oracle : Oracle) (data : ManifestData) :
    PreservesCore data (fastWriteAll data (fastCheckAll oracle data)) :=
  preservesCore_fastWriteAll (fastCheckAll oracle data) data
    (fun e he kv hkv => by rw [fastCheckAll_kinds e he kv hkv]; decide)
    (preservesCore_refl data)

theorem fastCheckAll_shape {oracle : Oracle} {data : ManifestData} :
    ∀ e ∈ fastCheckAll oracle data, e.2 = [] ∨ ∃ k v, e.2 = [(k, v)] := by
  intro e he
  obtain ⟨r, _, hck⟩ := fastCheckAll_mem he
  rcases checkPathFast_cases oracle hck with h0 | ⟨v, hv, _⟩
  · exact Or.inl h0
  · exact Or.inr ⟨"binhash", v, hv⟩

theorem fastCheckAll_isSome {oracle : Oracle} {data : ManifestData} :
    ∀ e ∈ fastCheckAll oracle data, (alget e.1 data).isSome := by
  intro e he
  obtain ⟨r, hmem, _⟩ := fastCheckAll_mem he
  exact alget_isSome_of_mem hmem

theorem fastVals_establish :
    ∀ (fails : List (String × List (String × String))) (d : ManifestData),
      (fails.map Prod.fst).Nodup →
      (∀ e ∈ fails, (alget e.1 d).isSome) →
      (∀ e ∈ fails, e.2 = [] ∨ ∃ k v, e.2 = [(k, v)]) →
      FastVals fails (fastWriteAll d fails) := by
  intro fails
  induction fails with
  | nil =>
    intro d _ _ _ e he
    cases he
  | cons e rest ih =>
    intro d hnd hks hsh
    rw [List.map_cons, List.nodup_cons] at hnd
    intro e2 he2
    rcases List.mem_cons.mp he2 with rfl | hmem
    · rw [fastWriteAll_cons, fastWriteAll_frame rest _ hnd.1]
      obtain ⟨r, hr⟩ := Option.isSome_iff_exists.mp (hks e2 (List.mem_cons_self e2 rest))
      rcases hsh e2 (List.mem_cons_self e2 rest) with h0 | ⟨k, v, hkv⟩
      · rw [h0, List.foldl_nil]
        exact ⟨r, hr, fun kv hkv2 => absurd hkv2 (List.not_mem_nil kv)⟩
      · rw [hkv, List.foldl_cons, List.foldl_nil, alget_setPathHash, if_pos rfl, hr,
          Option.map_some']
        refine ⟨_, rfl, ?_⟩
        intro kv2 hkv2
        rcases List.mem_singleton.mp hkv2 with rfl
        dsimp only
        rw [alget_dictSet, if_pos rfl]
    · rw [fastWriteAll_cons]
      refine ih _ hnd.2 (fun x hx => ?_) (fun x hx => hsh x (List.mem_cons_of_mem e hx)) e2 hmem
      rw [isSome_setFold e.1 x.1 e.2 d]
      exact hks x (List.mem_cons_of_mem e hx)

theorem alget_of_core_rev {d0 d : ManifestData} (h : PreservesCore d0 d) {p : String}
    {r : FileRecord} (hr : alget p d = some r) :
    ∃ r0, alget p d0 = some r0 ∧ r.fullpath = r0.fullpath ∧ r.copy = r0.copy ∧
      alget "md5" r.hashes = alget "md5" r0.hashes := by
  have hh := h p
  rw [hr] at hh
  cases hd : alget p d0 with
  | none => rw [hd] at hh; exact absurd hh (by simp)
  | some r0 =>
    rw [hd] at hh
    simp only [Option.map_some', Option.some.injEq, coreView, Prod.mk.injEq] at hh
    exact ⟨r0, rfl, hh.1, hh.2.1, hh.2.2⟩

theorem fastVals_addFast (oracle : Oracle) {data0 : ManifestData}
    {fails : List (String × List (String × String))}
    (hvals : ∀ e ∈ fails, ∀ kv ∈ e.2,
      ∃ r0, alget e.1 data0 = some r0 ∧ kv.1 = "binhash" ∧
        oracle r0.fullpath "binhash" = some kv.2)
    (q : String) {d : ManifestData} (hpres : PreservesCore data0 d) (hfv : FastVals fails d) :
    FastVals fails (addPath oracle d q fast_hashes true true) := by
  rw [addFast_eq]
  cases hq : alget q d with
  | none => exact hfv
  | some rq =>
    dsimp only
    cases ho : oracle rq.fullpath "binhash" with
    | none => exact hfv
    | some w =>
      intro e he
      obtain ⟨re, hre, hkv⟩ := hfv e he
      by_cases heq : e.1 = q
      · obtain ⟨rq0, hrq0, hfpq, _, _⟩ := alget_of_core_rev hpres hq
        refine ⟨⟨re.fullpath, dictSet re.hashes "binhash" (some w), re.copy⟩, ?_, ?_⟩
        · rw [alget_setPathHash, if_pos heq, hre, Option.map_some']
        · intro kv hkv2
          obtain ⟨r0, hr0, hk1, hor⟩ := hvals e he kv hkv2
          rw [heq] at hr0
          have hrq0eq : r0 = rq0 := by
            rw [hrq0] at hr0
            exact (Option.some.injEq _ _ ▸ hr0).symm
          have hw : some w = some kv.2 := by
            rw [← hor, hrq0eq, ← hfpq, ho]
          show alget kv.1 (dictSet re.hashes "binhash" (some w)) = some (some kv.2)
          rw [alget_dictSet, hk1, if_pos rfl, hw]
      · refine ⟨re, ?_, hkv⟩
        rw [alget_setPathHash, if_neg heq]
        exact hre

/-! ## The strict-mode loop -/

theorem reproduceLoop_nil (oracle : Oracle) (d : ManifestData) (dumps : List ManifestData) :
    reproduceLoop oracle d dumps [] = .ok ⟨d, dumps⟩ := rfl

theorem reproduceLoop_cons (oracle : Oracle) (d : ManifestData) (dumps : List ManifestData)
    (e : String × List (String × String)) (rest : List (String × List (String × String))) :
    reproduceLoop oracle d dumps (e :: rest) =
      match alget e.1 d with
      | none => .pyerror dumps
      | some r =>
        if fullCheckOk oracle r then
          reproduceLoop oracle (addPath oracle d e.1 fast_hashes true true)
            (dumps ++ [addPath oracle d e.1 fast_hashes true true]) rest
        else .fatal e.1 (fullDiag oracle r) dumps := rfl

theorem reproduceLoop_fatal_of_ex (oracle : Oracle) (data0 : ManifestData) :
    ∀ (l : List (String × List (String × String))) (d : ManifestData)
      (dumps : List ManifestData),
      PreservesCore data0 d →
      (∀ e ∈ l, (alget e.1 data0).isSome) →
      (∃ e ∈ l, fullRecheckFails oracle data0 e.1 = true) →
      ∃ q rq dumps2, alget q data0 = some rq ∧ fullRecheckFails oracle data0 q = true ∧
        reproduceLoop oracle d dumps l = .fatal q (fullDiag oracle rq) dumps2 := by
  intro l
  induction l with
  | nil =>
    intro d dumps _ _ hex
    obtain ⟨e, he, _⟩ := hex
    cases he
  | cons e rest ih =>
    intro d dumps hpres hkeys hex
    obtain ⟨r0, hr0⟩ := Option.isSome_iff_exists.mp (hkeys e (List.mem_cons_self e rest))
    obtain ⟨r, hr, hfp, hcp, hmd⟩ := alget_of_core hpres hr0
    have hcok : fullCheckOk oracle r = fullCheckOk oracle r0 := fullCheckOk_congr oracle hfp hmd
    rw [reproduceLoop_cons, hr]
    dsimp only
    cases hfc : fullCheckOk oracle r with
    | false =>
      rw [if_neg Bool.false_ne_true]
      refine ⟨e.1, r0, dumps, hr0, ?_, ?_⟩
      · rw [fullRecheckFails_of_some hr0, ← hcok, hfc]
        rfl
      · rw [fullDiag_congr oracle hfp hmd]
    | true =>
      rw [if_pos rfl]
      have hex2 : ∃ e2 ∈ rest, fullRecheckFails oracle data0 e2.1 = true := by
        obtain ⟨e2, he2, hf2⟩ := hex
        rcases List.mem_cons.mp he2 with rfl | hmem
        · exfalso
          rw [fullRecheckFails_of_some hr0, ← hcok, hfc] at hf2
          exact absurd hf2 (by decide)
        · exact ⟨e2, hmem, hf2⟩
      exact ih _ _ (preservesCore_addFast oracle e.1 hpres)
        (fun x hx => hkeys x (List.mem_cons_of_mem e hx)) hex2

theorem reproduceLoop_ok_frame (oracle : Oracle) {p : String} :
    ∀ (l : List (String × List (String × String))) (d : ManifestData)
      (dumps : List ManifestData) (out : CheckOutcome),
      p ∉ l.map Prod.fst →
      reproduceLoop oracle d dumps l = .ok out →
      alget p out.data = alget p d := by
  intro l
  induction l with
  | nil =>
    intro d dumps out _ h
    rw [reproduceLoop_nil] at h
    injection h with h1
    rw [← h1]
  | cons e rest ih =>
    intro d dumps out hp h
    rw [reproduceLoop_cons] at h
    cases hr : alget e.1 d with
    | none => rw [hr] at h; cases h
    | some r =>
      rw [hr] at h
      dsimp only at h
      cases hfc : fullCheckOk oracle r with
      | false => rw [hfc, if_neg Bool.false_ne_true] at h; cases h
      | true =>
        rw [hfc, if_pos rfl] at h
        rw [List.map_cons] at hp
        have h1 : p ≠ e.1 := fun hh => hp (by rw [hh]; exact List.mem_cons_self _ _)
        have h2 : p ∉ rest.map Prod.fst := fun hm => hp (List.mem_cons_of_mem _ hm)
        rw [ih _ _ _ h2 h, alget_addFast_ne oracle d e.1 h1]

theorem reproduceLoop_ok_getLast (oracle : Oracle) :
    ∀ (l : List (String × List (String × String))) (d : ManifestData)
      (dumps : List ManifestData) (out : CheckOutcome),
      reproduceLoop oracle d dumps l = .ok out → l ≠ [] →
      out.dumps.getLast? = some out.data := by
  intro l
  induction l with
  | nil =>
    intro d dumps out _ hne
    exact absurd rfl hne
  | cons e rest ih =>
    intro d dumps out h _
    rw [reproduceLoop_cons] at h
    cases hr : alget e.1 d with
    | none => rw [hr] at h; cases h
    | some r =>
      rw [hr] at h
      dsimp only at h
      cases hfc : fullCheckOk oracle r with
      | false => rw [hfc, if_neg Bool.false_ne_true] at h; cases h
      | true =>
        rw [hfc, if_pos rfl] at h
        cases rest with
        | nil =>
          rw [reproduceLoop_nil] at h
          injection h with h1
          rw [← h1]
          simp
        | cons e2 t2 =>
          exact ih _ _ _ h (by simp)

end Payu

namespace Payu

theorem reproduceLoop_ok_heals (oracle : Oracle) (data0 : ManifestData) :
    ∀ (l : List (String × List (String × String))) (d : ManifestData)
      (dumps : List ManifestData) (out : CheckOutcome) (p : String),
      PreservesCore data0 d →
      (∀ e ∈ l, (alget e.1 data0).isSome) →
      (l.map Prod.fst).Nodup →
      p ∈ l.map Prod.fst →
      reproduceLoop oracle d dumps l = .ok out →
      ∃ r0 r2, alget p data0 = some r0 ∧ alget p out.data = some r2 ∧
        r2.fullpath = r0.fullpath ∧ r2.copy = r0.copy ∧
        alget "md5" r2.hashes = alget "md5" r0.hashes ∧
        ∀ v, oracle r0.fullpath "binhash" = some v →
          alget "binhash" r2.hashes = some (some v) := by
  intro l
  induction l with
  | nil =>
    intro d dumps out p _ _ _ hp _
    cases hp
  | cons e rest ih =>
    intro d dumps out p hpres hkeys hnd hp h
    rw [reproduceLoop_cons] at h
    rw [List.map_cons, List.nodup_cons] at hnd
    rw [List.map_cons] at hp
    obtain ⟨re0, hre0⟩ := Option.isSome_iff_exists.mp (hkeys e (List.mem_cons_self e rest))
    obtain ⟨re, hre, hfp, hcp, hmd⟩ := alget_of_core hpres hre0
    rw [hre] at h
    dsimp only at h
    cases hfc : fullCheckOk oracle re with
    | false =>
      rw [hfc, if_neg Bool.false_ne_true] at h
      cases h
    | true =>
      rw [hfc, if_pos rfl] at h
      by_cases hpe : p = e.1
      · subst hpe
        have hfr := reproduceLoop_ok_frame oracle rest _ _ _ hnd.1 h
        rw [addFast_eq, hre] at hfr
        dsimp only at hfr
        cases how : oracle re.fullpath "binhash" with
        | none =>
          rw [how] at hfr
          refine ⟨re0, re, hre0, by rw [hfr]; exact hre, hfp, hcp, hmd, ?_⟩
          intro v hv
          rw [← hfp, how] at hv
          cases hv
        | some w =>
          rw [how] at hfr
          rw [alget_setPathHash, if_pos rfl, hre, Option.map_some'] at hfr
          refine ⟨re0, _, hre0, hfr, hfp, hcp, ?_, ?_⟩
          · show alget "md5" (dictSet re.hashes "binhash" (some w)) = alget "md5" re0.hashes
            rw [alget_dictSet, if_neg (by decide)]
            exact hmd
          · intro v hv
            rw [← hfp, how] at hv
            injection hv with hv2
            show alget "binhash" (dictSet re.hashes "binhash" (some w)) = some (some v)
            rw [alget_dictSet, if_pos rfl, hv2]
      · have hp2 : p ∈ rest.map Prod.fst := by
          rcases List.mem_cons.mp hp with h1 | h2
          · exact absurd h1 hpe
          · exact h2
        exact ih _ _ _ p (preservesCore_addFast oracle e.1 hpres)
          (fun x hx => hkeys x (List.mem_cons_of_mem e hx)) hnd.2 hp2 h

theorem reproduceLoop_dumps_inv (oracle : Oracle) (data0 : ManifestData)
    (fails0 : List (String × List (String × String)))
    (hvals : ∀ e ∈ fails0, ∀ kv ∈ e.2,
      ∃ r0, alget e.1 data0 = some r0 ∧ kv.1 = "binhash" ∧
        oracle r0.fullpath "binhash" = some kv.2) :
    ∀ (l : List (String × List (String × String))) (d : ManifestData)
      (dumps : List ManifestData),
      PreservesCore data0 d → FastVals fails0 d →
      (∀ dm ∈ dumps, FastVals fails0 dm) →
      ∀ dm ∈ (reproduceLoop oracle d dumps l).dumpList, FastVals fails0 dm := by
  intro l
  induction l with
  | nil =>
    intro d dumps _ _ hd dm hdm
    exact hd dm hdm
  | cons e rest ih =>
    intro d dumps hpres hfv hd dm hdm
    rw [reproduceLoop_cons] at hdm
    cases hr : alget e.1 d with
    | none =>
      rw [hr] at hdm
      exact hd dm hdm
    | some r =>
      rw [hr] at hdm
      dsimp only at hdm
      cases hfc : fullCheckOk oracle r with
      | false =>
        rw [hfc, if_neg Bool.false_ne_true] at hdm
        exact hd dm hdm
      | true =>
        rw [hfc, if_pos rfl] at hdm
        have hfv2 : FastVals fails0 (addPath oracle d e.1 fast_hashes true true) :=
          fastVals_addFast oracle hvals e.1 hpres hfv
        refine ih _ _ (preservesCore_addFast oracle e.1 hpres) hfv2 ?_ dm hdm
        intro dm2 hdm2
        rcases List.mem_append.mp hdm2 with h1 | h2
        · exact hd dm2 h1
        · rw [List.mem_singleton.mp h2]
          exact hfv2

end Payu

namespace Payu

/-! ## `SameFullpaths` and the lenient-mode full-hash refresh -/

theorem sameFullpaths_of_core {d0 d : ManifestData} (h : PreservesCore d0 d) :
    SameFullpaths d0 d := by
  intro p
  cases h2 : alget p d0 with
  | none =>
    have hh := h p
    rw [h2] at hh
    cases h1 : alget p d with
    | none => rfl
    | some r =>
      rw [h1] at hh
      exact absurd hh (by simp)
  | some r0 =>
    obtain ⟨r, hr, hfp, _, _⟩ := alget_of_core h h2
    rw [hr, Option.map_some', Option.map_some', hfp]

theorem sameFullpaths_setPathHash {d0 d : ManifestData} (p k : String) (v : Option String)
    (h : SameFullpaths d0 d) : SameFullpaths d0 (setPathHash d p k v) := by
  intro q
  rw [alget_setPathHash]
  by_cases hq : q = p
  · rw [if_pos hq, ← h q]
    cases alget q d <;> rfl
  · rw [if_neg hq]
    exact h q

theorem alget_of_sameFullpaths {d0 d : ManifestData} (h : SameFullpaths d0 d) {p : String}
    {r : FileRecord} (hr : alget p d = some r) :
    ∃ r0, alget p d0 = some r0 ∧ r.fullpath = r0.fullpath := by
  have hh := h p
  rw [hr] at hh
  cases h2 : alget p d0 with
  | none =>
    rw [h2] at hh
    exact absurd hh (by simp)
  | some r0 =>
    rw [h2] at hh
    simp only [Option.map_some', Option.some.injEq] at hh
    exact ⟨r0, rfl, hh⟩

theorem addFullAll_nil (oracle : Oracle) (d : ManifestData) : addFullAll oracle d [] = d := rfl

theorem addFullAll_cons (oracle : Oracle) (d : ManifestData) (p : String) (ps : List String) :
    addFullAll oracle d (p :: ps) =
      addFullAll oracle (addPath oracle d p full_hashes true false) ps := rfl

theorem alget_addFull_ne (oracle : Oracle) (d : ManifestData) (p : String) {q : String}
    (h : q ≠ p) : alget q (addPath oracle d p full_hashes true false) = alget q d := by
  rw [addFull_eq]
  cases alget p d with
  | none => rfl
  | some r =>
    dsimp only
    exact alget_setPathHash_ne d p "md5" (oracle r.fullpath "md5") h

theorem isSome_addFull (oracle : Oracle) (d : ManifestData) (p q : String) :
    (alget q (addPath oracle d p full_hashes true false)).isSome = (alget q d).isSome := by
  rw [addFull_eq]
  cases alget p d with
  | none => rfl
  | some r =>
    dsimp only
    exact isSome_setPathHash d p "md5" (oracle r.fullpath "md5") q

theorem sameFullpaths_addFull (oracle : Oracle) {d0 d : ManifestData} (p : String)
    (h : SameFullpaths d0 d) : SameFullpaths d0 (addPath oracle d p full_hashes true false) := by
  rw [addFull_eq]
  cases alget p d with
  | none => exact h
  | some r =>
    dsimp only
    exact sameFullpaths_setPathHash p "md5" (oracle r.fullpath "md5") h

theorem addFullAll_frame (oracle : Oracle) {p : String} :
    ∀ (ps : List String) (d : ManifestData), p ∉ ps →
      alget p (addFullAll oracle d ps) = alget p d := by
  intro ps
  induction ps with
  | nil => intro d _; rfl
  | cons q t ih =>
    intro d hp
    have h1 : p ≠ q := fun hh => hp (by rw [hh]; exact List.mem_cons_self _ _)
    have h2 : p ∉ t := fun hm => hp (List.mem_cons_of_mem _ hm)
    rw [addFullAll_cons, ih _ h2, alget_addFull_ne oracle d q h1]

theorem addFullAll_md5 (oracle : Oracle) (d0 : ManifestData) :
    ∀ (ps : List String) (d : ManifestData),
      SameFullpaths d0 d →
      (∀ p ∈ ps, (alget p d).isSome) →
      ∀ p ∈ ps, ∃ r0 r2, alget p d0 = some r0 ∧
        alget p (addFullAll oracle d ps) = some r2 ∧
        alget "md5" r2.hashes = some (oracle r0.fullpath "md5") := by
  intro ps
  induction ps with
  | nil =>
    intro d _ _ p hp
    cases hp
  | cons q t ih =>
    intro d hfp hks p hp
    rw [addFullAll_cons]
    by_cases hpt : p ∈ t
    · exact ih _ (sameFullpaths_addFull oracle q hfp)
        (fun x hx => by
          rw [isSome_addFull]
          exact hks x (List.mem_cons_of_mem q hx)) p hpt
    · have hpq : p = q := by
        rcases List.mem_cons.mp hp with h1 | h2
        · exact h1
        · exact absurd h2 hpt
      subst hpq
      obtain ⟨rp, hrp⟩ := Option.isSome_iff_exists.mp (hks p (List.mem_cons_self p t))
      obtain ⟨r0, hr0, hfpe⟩ := alget_of_sameFullpaths hfp hrp
      rw [addFullAll_frame oracle t _ hpt, addFull_eq, hrp]
      dsimp only
      rw [alget_setPathHash, if_pos rfl, hrp, Option.map_some']
      refine ⟨r0, _, hr0, rfl, ?_⟩
      dsimp only
      rw [alget_dictSet, if_pos rfl, hfpe]

/-! ## Branching of `check_fast` -/

theorem check_fast_of_fails (oracle : Oracle) (data : ManifestData)
    (hne : fastCheckAll oracle data ≠ []) :
    (check_fast oracle true data =
      reproduceLoop oracle (fastWriteAll data (fastCheckAll oracle data)) []
        (fastCheckAll oracle data)) ∧
    (check_fast oracle false data =
      .ok ⟨addFullAll oracle (fastWriteAll data (fastCheckAll oracle data))
          ((fastCheckAll oracle data).map Prod.fst),
        [addFullAll oracle (fastWriteAll data (fastCheckAll oracle data))
          ((fastCheckAll oracle data).map Prod.fst)]⟩) := by
  have hie : (fastCheckAll oracle data).isEmpty = false := by
    cases hc : fastCheckAll oracle data with
    | nil => exact absurd hc hne
    | cons a t => rfl
  constructor <;> (unfold check_fast; dsimp only; rw [hie]; rfl)

/-! ## C1, C2, C3, C8: `check_fast` -/

/-- C1: under `reproduce=true`, if some tracked path fails the fast
check and its freshly recomputed full hash also differs from the
stored value, `check_fast` terminates with the fatal failure
(`sys.exit(1)`) of some full-mismatching path, after emitting its
per-path diagnostic listing, for each freshly computed full hash, the
hash kind, the freshly observed value and the previously stored
value; no success outcome is reported. -/
theorem check_fast_strict_full_mismatch_fatal (oracle : Oracle) (data : ManifestData)
    (p : String) (hp : p ∈ (fastCheckAll oracle data).map Prod.fst)
    (hfail : fullRecheckFails oracle data p = true) :
    ∃ q rq dumps2, alget q data = some rq ∧ fullRecheckFails oracle data q = true ∧
      check_fast oracle true data = .fatal q (fullDiag oracle rq) dumps2 := by
  have hne : fastCheckAll oracle data ≠ [] := by
    intro hh
    rw [hh] at hp
    cases hp
  rw [(check_fast_of_fails oracle data hne).1]
  refine reproduceLoop_fatal_of_ex oracle data (fastCheckAll oracle data) _ []
    (preservesCore_data1 oracle data) (fun e he => fastCheckAll_isSome e he) ?_
  obtain ⟨e, he, hfst⟩ := List.mem_map.mp hp
  exact ⟨e, he, by rw [hfst]; exact hfail⟩

theorem check_fast_strict_full_mismatch_fatal_w :
    ∃ q rq dumps2, alget q dW = some rq ∧ fullRecheckFails oW dW q = true ∧
      check_fast oW true dW = .fatal q (fullDiag oW rq) dumps2 :=
  check_fast_strict_full_mismatch_fatal oW dW "fb" (by decide) (by decide)

/-- C2: under `reproduce=false`, when some path fails the fast check,
`check_fast` completes without error, dumps the document exactly once
with the dumped snapshot equal to the final document, and every failed
path ends with its full-hash (`md5`) entry force-overwritten with the
value freshly recomputed from its current fullpath content, regardless
of the previous value. -/
theorem check_fast_lenient_heals (oracle : Oracle) (data : ManifestData)
    (hne : fastCheckAll oracle data ≠ []) :
    ∃ out, check_fast oracle false data = .ok out ∧ out.dumps = [out.data] ∧
      ∀ p ∈ (fastCheckAll oracle data).map Prod.fst,
        ∃ r0 r2, alget p data = some r0 ∧ alget p out.data = some r2 ∧
          alget "md5" r2.hashes = some (oracle r0.fullpath "md5") := by
  rw [(check_fast_of_fails oracle data hne).2]
  refine ⟨_, rfl, rfl, ?_⟩
  intro p hp
  have hsf : SameFullpaths data (fastWriteAll data (fastCheckAll oracle data)) :=
    sameFullpaths_of_core (preservesCore_data1 oracle data)
  refine addFullAll_md5 oracle data ((fastCheckAll oracle data).map Prod.fst) _ hsf ?_ p hp
  intro x hx
  obtain ⟨e, he, hfst⟩ := List.mem_map.mp hx
  rw [isSome_fastWriteAll x (fastCheckAll oracle data) data, ← hfst]
  exact fastCheckAll_isSome e he

theorem check_fast_lenient_heals_w :
    ∃ out, check_fast oW false dW = .ok out ∧ out.dumps = [out.data] ∧
      ∀ p ∈ (fastCheckAll oW dW).map Prod.fst,
        ∃ r0 r2, alget p dW = some r0 ∧ alget p out.data = some r2 ∧
          alget "md5" r2.hashes = some (oW r0.fullpath "md5") :=
  check_fast_lenient_heals oW dW (by decide)

/-- C3: under `reproduce=true`, for a path that failed the fast check
but whose freshly recomputed full hash still matches the stored value,
when `check_fast` completes the path's record keeps its fullpath, copy
flag and full-hash (`md5`) entry unchanged while only its fast-hash
(`binhash`) entry is refreshed to the fresh recomputation, and the
document was persisted: the last dump equals the final document. -/
theorem check_fast_strict_heal_refreshes_fast (oracle : Oracle) (data : ManifestData)
    (p : String) (vals : List (String × String)) (out : CheckOutcome)
    (hnd : (data.map Prod.fst).Nodup)
    (hp : (p, vals) ∈ fastCheckAll oracle data)
    (_hfull : fullRecheckFails oracle data p = false)
    (hok : check_fast oracle true data = .ok out) :
    ∃ r0 r2, alget p data = some r0 ∧ alget p out.data = some r2 ∧
      r2.fullpath = r0.fullpath ∧ r2.copy = r0.copy ∧
      alget "md5" r2.hashes = alget "md5" r0.hashes ∧
      (∀ v, oracle r0.fullpath "binhash" = some v →
        alget "binhash" r2.hashes = some (some v)) ∧
      out.dumps.getLast? = some out.data := by
  have hne : fastCheckAll oracle data ≠ [] := fun hh => by rw [hh] at hp; cases hp
  rw [(check_fast_of_fails oracle data hne).1] at hok
  have hmem : p ∈ (fastCheckAll oracle data).map Prod.fst :=
    List.mem_map.mpr ⟨(p, vals), hp, rfl⟩
  obtain ⟨r0, r2, h1, h2, h3, h4, h5, h6⟩ :=
    reproduceLoop_ok_heals oracle data (fastCheckAll oracle data) _ [] out p
      (preservesCore_data1 oracle data) (fun e he => fastCheckAll_isSome e he)
      (fastCheckAll_keys_nodup hnd) hmem hok
  exact ⟨r0, r2, h1, h2, h3, h4, h5, h6,
    reproduceLoop_ok_getLast oracle (fastCheckAll oracle data) _ [] out hok hne⟩

theorem check_fast_strict_heal_refreshes_fast_w :
    ∃ r0 r2, alget "fa" dH = some r0 ∧
      alget "fa" (CheckOutcome.mk dH2 [dH2]).data = some r2 ∧
      r2.fullpath = r0.fullpath ∧ r2.copy = r0.copy ∧
      alget "md5" r2.hashes = alget "md5" r0.hashes ∧
      (∀ v, oW r0.fullpath "binhash" = some v →
        alget "binhash" r2.hashes = some (some v)) ∧
      (CheckOutcome.mk dH2 [dH2]).dumps.getLast? = some (CheckOutcome.mk dH2 [dH2]).data :=
  check_fast_strict_heal_refreshes_fast oW dH "fa" [("binhash", "b-new")] ⟨dH2, [dH2]⟩
    (by decide) (by decide) (by decide) (by decide)

/-- C8: under `reproduce=true`, the freshly observed fast-hash values
of every path that failed the fast check are written into the document
before any per-path full-hash recheck, so every dump written during
the run — in particular a dump triggered by one path's successful
full-hash recheck, and even when the run later terminates fatally —
already contains the fresh fast-hash values of every failed path,
whether or not its full hash has been verified yet. -/
theorem check_fast_strict_dumps_fresh_fast (oracle : Oracle) (data : ManifestData)
    (dm : ManifestData) (p : String) (vals : List (String × String)) (k v : String)
    (hnd : (data.map Prod.fst).Nodup)
    (hdm : dm ∈ (check_fast oracle true data).dumpList)
    (hp : (p, vals) ∈ fastCheckAll oracle data)
    (hkv : (k, v) ∈ vals) :
    ∃ r, alget p dm = some r ∧ alget k r.hashes = some (some v) := by
  have hne : fastCheckAll oracle data ≠ [] := fun hh => by rw [hh] at hp; cases hp
  rw [(check_fast_of_fails oracle data hne).1] at hdm
  have hfv0 : FastVals (fastCheckAll oracle data)
      (fastWriteAll data (fastCheckAll oracle data)) :=
    fastVals_establish (fastCheckAll oracle data) data (fastCheckAll_keys_nodup hnd)
      (fun e he => fastCheckAll_isSome e he) (fun e he => fastCheckAll_shape e he)
  have hinv := reproduceLoop_dumps_inv oracle data (fastCheckAll oracle data)
    (fastCheckAll_vals_oracle hnd) (fastCheckAll oracle data) _ []
    (preservesCore_data1 oracle data) hfv0
    (fun dm2 hdm2 => absurd hdm2 (List.not_mem_nil dm2)) dm hdm
  obtain ⟨r, hr, hkvs⟩ := hinv (p, vals) hp
  exact ⟨r, hr, hkvs (k, v) hkv⟩

theorem check_fast_strict_dumps_fresh_fast_w :
    ∃ r, alget "fb" dW1 = some r ∧ alget "binhash" r.hashes = some (some "bb-new") :=
  check_fast_strict_dumps_fresh_fast oW dW dW1 "fb" [("binhash", "bb-new")] "binhash" "bb-new"
    (by decide) (by decide) (by decide) (by decide)

end Payu
